import Mathlib

/-!
Verification of the numerical cores of the Cassiopeia lineage-tracing
package against its specification:

* `IIDExponentialMLE.estimate_branch_lengths` and
  `IIDExponentialMLE.model_log_likelihood` together with the grid-search
  wrapper `IIDExponentialMLEGridSearchCV`
  (`cassiopeia/tools/branch_length_estimator/IIDExponentialMLE.py`);
* `ZeroOneBLE.estimate_branch_lengths`
  (`cassiopeia/tools/branch_length_estimator/ZeroOneBLE.py`);
* `MaxCutSolver.perform_split` and `MaxCutSolver.evaluate_cut`
  (`cassiopeia/solver/MaxCutSolver.py`);
* the cross-validation fold runners `_fit_model` (IIDExponentialMLE.py) and
  `_cv_metric_ble` (`cassiopeia/model_selection/BranchLengthEstimatorCV.py`).

Machine floats are modelled by rationals.  The external `CassiopeiaTree`
collaborator (tree topology, per-edge mutation queries, time assignment) is
modelled by explicit rose trees and per-edge data records, and the external
convex solver (cvxpy) by an oracle producing either a failure or an
assignment of values to the per-node decision variables.
-/

namespace Cassiopeia

mutual
/-- Rooted tree over natural-number node identifiers: the fixed topology the
estimators receive.  `RTree.node i kids` is the node with identifier `i`. -/
inductive RTree where
  | node (id : ℕ) (kids : RForest)
inductive RForest where
  | nil
  | cons (t : RTree) (ts : RForest)
end

/-- Identifier of a tree's root node. -/
def RTree.idOf : RTree → ℕ
  | .node i _ => i

mutual
/-- Identifiers of the leaves of the tree in depth-first order (models the
collaborator's `tree.leaves`; a node with no children is a leaf). -/
def leavesT : RTree → List ℕ
  | .node i .nil => [i]
  | .node _ (.cons t ts) => leavesT t ++ leavesF ts
def leavesF : RForest → List ℕ
  | .nil => []
  | .cons t ts => leavesT t ++ leavesF ts
end

/-- The anchor leaf `a_leaf = tree.leaves[0]` of
`IIDExponentialMLE.estimate_branch_lengths` (line 120). -/
def anchorOf (t : RTree) : ℕ := (leavesT t).headD 0

mutual
/-- Tree annotated with a time (in ℚ, modelling float) at every node:
the estimator's output. -/
inductive TTree where
  | node (id : ℕ) (time : ℚ) (kids : TForest)
inductive TForest where
  | nil
  | cons (t : TTree) (ts : TForest)
end

/-- Time stored at a tree's root node. -/
def TTree.timeOf : TTree → ℚ
  | .node _ t _ => t

mutual
/-- The post-solve clamping sweep of `estimate_branch_lengths`
(IIDExponentialMLE.py lines 187-188): in a root-to-leaves (preorder) sweep
over `depth_first_traverse_edges`, `times[child] = max(times[parent],
times[child])`.  Because the sweep is preorder, the parent's time is final
when an edge is processed, so each node's final time is the max of its
parent's final time `pt` and its own raw time `raw id`. -/
def clampT (raw : ℕ → ℚ) (pt : ℚ) : RTree → TTree
  | .node i kids => .node i (max pt (raw i)) (clampF raw (max pt (raw i)) kids)
def clampF (raw : ℕ → ℚ) (pt : ℚ) : RForest → TForest
  | .nil => .nil
  | .cons t ts => .cons (clampT raw pt t) (clampF raw pt ts)
end

/-- Post-solve time assignment (lines 178-189): `times[root] = 0.0` exactly,
then the clamping sweep on all other nodes. -/
def postProcess (raw : ℕ → ℚ) : RTree → TTree
  | .node i kids => .node i 0 (clampF raw 0 kids)

mutual
/-- `monoT tt = true` iff along every edge of the time-annotated tree the
child's time is at least its parent's time (no negative-length edge). -/
def monoT : TTree → Bool
  | .node _ t kids => monoF t kids
def monoF (pt : ℚ) : TForest → Bool
  | .nil => true
  | .cons c cs => (decide (pt ≤ c.timeOf)) && monoT c && monoF pt cs
end

mutual
/-- Times stored at the leaves, in depth-first order. -/
def leafTimesT : TTree → List ℚ
  | .node _ t .nil => [t]
  | .node _ _ (.cons c cs) => leafTimesT c ++ leafTimesF cs
def leafTimesF : TForest → List ℚ
  | .nil => []
  | .cons c cs => leafTimesT c ++ leafTimesF cs
end

mutual
/-- The topology annotated with the raw times themselves (what the clamping
sweep produces when no clamping is necessary). -/
def rawTreeT (raw : ℕ → ℚ) : RTree → TTree
  | .node i kids => .node i (raw i) (rawTreeF raw kids)
def rawTreeF (raw : ℕ → ℚ) : RForest → TForest
  | .nil => .nil
  | .cons t ts => .cons (rawTreeT raw t) (rawTreeF raw ts)
end

mutual
/-- `rawMonoT raw t = true` iff the raw times are non-decreasing along every
edge of the topology. -/
def rawMonoT (raw : ℕ → ℚ) : RTree → Bool
  | .node i kids => rawMonoF raw (raw i) kids
def rawMonoF (raw : ℕ → ℚ) (pv : ℚ) : RForest → Bool
  | .nil => true
  | .cons t ts => decide (pv ≤ raw t.idOf) && rawMonoT raw t && rawMonoF raw pv ts
end

mutual
/-- The minimum-branch-length constraints of the convex program
(IIDExponentialMLE.py lines 123-128): for every edge `(parent, child)`,
`v child ≥ v parent + δ` where
`δ = minimum_branch_length * v a_leaf`. -/
def consT (v : ℕ → ℚ) (δ : ℚ) : RTree → Bool
  | .node i kids => consF v δ (v i) kids
def consF (v : ℕ → ℚ) (δ : ℚ) (pv : ℚ) : RForest → Bool
  | .nil => true
  | .cons t ts => decide (pv + δ ≤ v t.idOf) && consT v δ t && consF v δ pv ts
end

/-- The ultrametric constraints of the convex program (lines 129-133): every
leaf's variable equals the anchor leaf's variable. -/
def ultraT (v : ℕ → ℚ) (t : RTree) : Bool :=
  (leavesT t).all (fun l => v l == v (anchorOf t))

/-- The errors `estimate_branch_lengths` can raise: three `ValueError`s from
the pre-solve input checks and two `IIDExponentialMLEError`s from the solve
itself. -/
inductive MLEErr where
  | noMutations
  | saturated
  | mblTooLarge
  | solverFailed
  | rateOutOfRange
deriving DecidableEq

/-- The numerical threshold `1e-8` used by the mutation-rate range check and
by `model_log_likelihood`. -/
def eps8 : ℚ := 1 / 100000000

/-- `(tree.character_matrix == 0).all().all()` (line 93): every entry of the
character matrix is the unmutated state `0`. -/
def allZeroCM (cm : List (List ℤ)) : Bool :=
  cm.all (fun row => row.all (fun x => x == 0))

/-- `(tree.character_matrix != 0).all().all()` (line 99): every entry of the
character matrix is non-zero (mutated or missing). -/
def allMutCM (cm : List (List ℤ)) : Bool :=
  cm.all (fun row => row.all (fun x => !(x == 0)))

/-- Shallow embedding of `IIDExponentialMLE.estimate_branch_lengths`
(IIDExponentialMLE.py lines 74-189).  Inputs supplied by the collaborators:
the character matrix `cm`, the collaborator's `tree.get_edge_depth()` as
`edgeDepth`, the topology `tr`, and the convex solver as an oracle `solver`
that either fails (`cp.SolverError`, line 162) or returns the solved value
of each node's decision variable.  Output: the fitted `mutation_rate`
(the anchor leaf's variable value, line 166) and the tree annotated with the
estimated times; or the error raised.  The fitted `log_likelihood`
attribute, a float no claim constrains, is not modelled. -/
def estimate_branch_lengths (cm : List (List ℤ)) (edgeDepth : ℕ)
    (minimumBranchLength : ℚ) (tr : RTree) (solver : Except Unit (ℕ → ℚ)) :
    Except MLEErr (ℚ × TTree) :=
  if allZeroCM cm then .error .noMutations
  else if allMutCM cm then .error .saturated
  else if (1 : ℚ) ≤ (edgeDepth : ℚ) * minimumBranchLength then .error .mblTooLarge
  else
    match solver with
    | .error _ => .error .solverFailed
    | .ok v =>
      let rate := v (anchorOf tr)
      if rate < eps8 ∨ 15 < rate then .error .rateOutOfRange
      else .ok (rate, postProcess (fun i => v i / rate) tr)

/-- The pre-solve `ValueError`s of `estimate_branch_lengths` (the spec's
"domain errors"): no-mutations, saturated, minimum branch length too
large. -/
def isDomainError : Except MLEErr (ℚ × TTree) → Bool
  | .error .noMutations => true
  | .error .saturated => true
  | .error .mblTooLarge => true
  | _ => false

/-! ### The `MaxCutSolver` partitioner (`cassiopeia/solver/MaxCutSolver.py`)

`construct_connectivity_graph`, `check_if_cut` and `max_cut_improve_cut`
live in `cassiopeia/solver/graph_utilities.py`, which is repository code
outside the sources at hand; they are modelled from the spec (section 4.3).
The graph itself is an input: a node list and a weighted edge list. -/

/-- Connectivity graph over a sample set.  Modelled from the spec:
`construct_connectivity_graph` produces a weighted undirected graph whose
nodes are the samples (edge weights are finite reals, here rationals); its
weight formula is outside the claims' scope, so the graph is taken as
input. -/
structure CGraph where
  nodes : List ℕ
  edges : List (ℕ × ℕ × ℚ)

/-- Modelled from the spec: `graph_utilities.check_if_cut u v cut` — the
edge `(u, v)` fully crosses the cut iff exactly one endpoint is in `cut`. -/
def check_if_cut (u v : ℕ) (cut : List ℕ) : Bool :=
  (decide (u ∈ cut)).xor (decide (v ∈ cut))

/-- `MaxCutSolver.evaluate_cut` (MaxCutSolver.py lines 156-178): the sum of
the weights of the edges that cross the cut. -/
def evaluate_cut (cut : List ℕ) (G : CGraph) : ℚ :=
  G.edges.foldl (fun s e => if check_if_cut e.1 e.2.1 cut then s + e.2.2 else s) 0

/-- The hyperplane-sampling loop of `perform_split` (lines 133-145):
starting from `return_cut = []`, `best_score = 0`, each candidate cut
replaces the current best exactly when its score is strictly greater
(`this_score > best_score`). -/
def selectCutAux (G : CGraph) : List (List ℕ) → List ℕ → ℚ → List ℕ × ℚ
  | [], best, bs => (best, bs)
  | c :: cs, best, bs =>
    if bs < evaluate_cut c G then selectCutAux G cs c (evaluate_cut c G)
    else selectCutAux G cs best bs

/-- The cut retained by the hyperplane-sampling loop, given the list of
candidate cuts (one per random hyperplane, in the order sampled). -/
def selectBestCut (G : CGraph) (cuts : List (List ℕ)) : List ℕ :=
  (selectCutAux G cuts [] 0).1

/-- Moving a single node across the partition: remove it from the cut side
if present, add it otherwise. -/
def flipNode (cut : List ℕ) (x : ℕ) : List ℕ :=
  if x ∈ cut then cut.erase x else x :: cut

/-- One pass of the hill-climb: the first single-node move that strictly
increases the cut score, if any.  Modelled from the spec (section 4.3 step
6): `max_cut_improve_cut` repeatedly moves single nodes between the two
sides while doing so increases the total cut score. -/
def improveOnce (G : CGraph) (cut : List ℕ) : List ℕ → Option (List ℕ)
  | [] => none
  | x :: xs =>
    if evaluate_cut cut G < evaluate_cut (flipNode cut x) G then some (flipNode cut x)
    else improveOnce G cut xs

/-- Modelled from the spec: `graph_utilities.max_cut_improve_cut` — greedy
hill-climbing on single-node moves until a local optimum; `fuel` bounds the
number of improving moves (the source loops until no move improves). -/
def max_cut_improve_cut (G : CGraph) : ℕ → List ℕ → List ℕ
  | 0, cut => cut
  | fuel + 1, cut =>
    match improveOnce G cut G.nodes with
    | none => cut
    | some c => max_cut_improve_cut G fuel c

/-- Shallow embedding of `MaxCutSolver.perform_split` (lines 65-154).  The
connectivity graph `G` (built by `construct_connectivity_graph` from the
character matrix) is an input; the stochastic embedding and the random
hyperplanes are summarised by `hyps`: one sign predicate per sampled
hyperplane, `b i = true` iff node `i`'s embedding has positive dot product
with the hyperplane normal, so the candidate cut is `G.nodes.filter b`
(source line 138-141).  If the graph has no edges the split returns
`(samples, [])` at once (lines 108-109); otherwise the best sampled cut is
hill-climbed and the right side is every sample not on the left
(lines 147-154). -/
def perform_split (samples : List ℕ) (G : CGraph) (hyps : List (ℕ → Bool))
    (fuel : ℕ) : List ℕ × List ℕ :=
  if G.edges.isEmpty then (samples, [])
  else
    let cuts := hyps.map (fun b => G.nodes.filter b)
    let left := max_cut_improve_cut G fuel (selectBestCut G cuts)
    (left, samples.filter (fun i => decide (i ∉ left)))

/-! ### The grid-search wrapper `IIDExponentialMLEGridSearchCV`
(IIDExponentialMLE.py lines 234-308) -/

/-- The order in which Python's stable `list.sort(reverse=True)` arranges
the `(held_out_log_likelihood, [minimum_branch_length])` tuples of line 293:
`p` may precede `q` iff `p` is lexicographically greater than or equal to
`q` (Python compares the score floats first, then the singleton lists of
minimum branch lengths). -/
def pyDescOrder (p q : ℚ × ℚ) : Prop :=
  q.1 < p.1 ∨ (q.1 = p.1 ∧ q.2 ≤ p.2)

instance (p q : ℚ × ℚ) : Decidable (pyDescOrder p q) := by
  unfold pyDescOrder; infer_instance

/-- `held_out_log_likelihoods.sort(reverse=True)` (line 293): stable
descending sort of the `(score, minimum_branch_length)` pairs under the
lexicographic tuple order. -/
def pySortDesc (l : List (ℚ × ℚ)) : List (ℚ × ℚ) :=
  List.insertionSort pyDescOrder l

/-- `IIDExponentialMLEGridSearchCV.estimate_branch_lengths`' selection of
the winning hyperparameter (lines 278-296): build `(cv_log_likelihood,
minimum_branch_length)` pairs in grid order, sort descending, take the
first pair's configuration.  `cvScore m` is the cross-validated held-out
log-likelihood of `minimum_branch_length = m`. -/
def gridSearchBestMBL (cvScore : ℚ → ℚ) (grid : List ℚ) : ℚ :=
  ((pySortDesc (grid.map (fun m => (cvScore m, m)))).headD (0, 0)).2

/-- Modelled from the spec: the claimed tie-break rule — rank by score
descending and break ties between equal-scoring configurations by
first-encountered order (strict improvement scan over the grid).  Stated
for comparison with `gridSearchBestMBL`. -/
def firstSeenBestMBL (cvScore : ℚ → ℚ) : List ℚ → ℚ
  | [] => 0
  | m :: ms =>
    (ms.foldl (fun p x => if p.2 < cvScore x then (x, cvScore x) else p)
      (m, cvScore m)).1

/-- The final refit of the grid search (lines 303-306): a fresh
`IIDExponentialMLE` with the winning `minimum_branch_length` is fitted on
the full tree. -/
def gridSearchCV_estimate (cvScore : ℚ → ℚ) (grid : List ℚ)
    (cm : List (List ℤ)) (edgeDepth : ℕ) (tr : RTree)
    (solver : Except Unit (ℕ → ℚ)) : Except MLEErr (ℚ × TTree) :=
  estimate_branch_lengths cm edgeDepth (gridSearchBestMBL cvScore grid) tr solver

/-! ### `IIDExponentialMLE.model_log_likelihood`
(IIDExponentialMLE.py lines 205-231) -/

/-- What `model_log_likelihood` reads from the collaborator for one edge
`(parent, child)` of `tree.edges`: the two node times and the counts of
unmutated and mutated characters along the edge. -/
structure EdgeData where
  parentTime : ℚ
  childTime : ℚ
  numUnmutated : ℕ
  numMutated : ℕ
deriving DecidableEq

/-- Observable outcome of `model_log_likelihood`: the `AssertionError` of
`assert(edge_length >= 0)` (line 214), the early `return -np.inf`
(line 226), or a finite value.  A finite value is the real number
`Σ terms` with one term `(nu, x, nm)` per edge contributing
`nu * (-x) + (nm > 0 ? nm * log(1 - exp(-x)) : 0)` for
`x = edge_length * mutation_rate`; the log/exp arithmetic is carried
symbolically since every mutated edge reaching it has `x ≥ 1e-8`, making
the term finite (so the final `assert not np.isnan` never fires). -/
inductive LLResult where
  | assertFailure
  | negInf
  | finite (terms : List (ℕ × ℚ × ℕ))
deriving DecidableEq

/-- The edge loop of `model_log_likelihood` (lines 212-229), accumulating
the symbolic per-edge terms. -/
def model_log_likelihood_go (rate : ℚ) :
    List EdgeData → List (ℕ × ℚ × ℕ) → LLResult
  | [], acc => .finite acc.reverse
  | e :: es, acc =>
    let l := e.childTime - e.parentTime
    if l < 0 then .assertFailure
    else if 0 < e.numMutated ∧ l * rate < eps8 then .negInf
    else model_log_likelihood_go rate es ((e.numUnmutated, l * rate, e.numMutated) :: acc)

/-- Shallow embedding of the static `IIDExponentialMLE.model_log_likelihood`
(lines 205-231).  `edges` lists, in `tree.edges` order, the per-edge data
the function reads from the tree. -/
def model_log_likelihood (edges : List EdgeData) (rate : ℚ) : LLResult :=
  model_log_likelihood_go rate edges []

/-! ### The cross-validation fold runners: `_fit_model`
(IIDExponentialMLE.py lines 380-394) and `_cv_metric_ble`
(BranchLengthEstimatorCV.py lines 108-139) -/

/-- The kinds of Python exception relevant to the fold runners. -/
inductive PyError where
  | iidExponentialMLEError
  | valueError
  | assertionError
  | otherError
deriving DecidableEq

/-- The exception classes caught by `_fit_model`'s handler
`except (IIDExponentialMLEError, ValueError)` (line 392). -/
def caughtByFitModel : PyError → Bool
  | .iidExponentialMLEError => true
  | .valueError => true
  | _ => false

/-- Shallow embedding of `_fit_model` (lines 380-394).  `fit` is the
outcome of `model.estimate_branch_lengths(train_tree)` plus the transfer of
times onto the validation tree; `score` the outcome of the held-out
`model_log_likelihood` call, given the fitted state.  Both run inside the
`try`, whose handler converts `IIDExponentialMLEError` and `ValueError`
to a `-np.inf` fold score (modelled as `⊥ : WithBot ℚ`); any other
exception propagates. -/
def fit_model {α : Type} (fit : Except PyError α)
    (score : α → Except PyError (WithBot ℚ)) : Except PyError (WithBot ℚ) :=
  match fit with
  | .error e => if caughtByFitModel e then .ok ⊥ else .error e
  | .ok a =>
    match score a with
    | .error e => if caughtByFitModel e then .ok ⊥ else .error e
    | .ok v => .ok v

/-- Shallow embedding of `_cv_metric_ble` (lines 108-139).  The `try` block
covers only state preparation and `model.estimate_branch_lengths`
(lines 113-119) and its handler is a bare `except:` returning `-np.inf`
(lines 120-121); the held-out scoring (lines 122-139) runs outside the
`try`, so an exception raised there propagates. -/
def cv_metric_ble {α : Type} (fit : Except PyError α)
    (score : α → Except PyError (WithBot ℚ)) : Except PyError (WithBot ℚ) :=
  match fit with
  | .error _ => .ok ⊥
  | .ok a => score a

/-! ### `ZeroOneBLE.estimate_branch_lengths`
(`cassiopeia/tools/branch_length_estimator/ZeroOneBLE.py`) -/

mutual
/-- Topology with, on each edge, the collaborator's count
`tree.get_number_of_mutations_along_edge(parent, child, include_missing)`
(with `include_missing` already fixed to the estimator's setting, under
which missing states count as mutations iff `include_missing` is true). -/
inductive MTree where
  | node (kids : MForest)
inductive MForest where
  | nil
  | cons (edgeMutations : ℕ) (child : MTree) (rest : MForest)
end

mutual
/-- Tree annotated with the (integer) times `ZeroOneBLE` assigns. -/
inductive ZTree where
  | node (time : ℕ) (kids : ZForest)
inductive ZForest where
  | nil
  | cons (c : ZTree) (rest : ZForest)
end

/-- Time stored at a tree's root node. -/
def ZTree.timeOf : ZTree → ℕ
  | .node t _ => t

mutual
/-- The `dfs` of `ZeroOneBLE.estimate_branch_lengths` (ZeroOneBLE.py lines
13-21): the node gets time `t`; each child gets
`t + 1 * (number of mutations along its edge > 0)`. -/
def zeroOneDfsT (t : ℕ) : MTree → ZTree
  | .node kids => .node t (zeroOneDfsF t kids)
def zeroOneDfsF (t : ℕ) : MForest → ZForest
  | .nil => .nil
  | .cons m c rest =>
    .cons (zeroOneDfsT (t + if 0 < m then 1 else 0) c) (zeroOneDfsF t rest)
end

/-- Shallow embedding of `ZeroOneBLE.estimate_branch_lengths` (lines
10-23): `dfs(tree.root, 0)` followed by `tree.set_times(times)`; the output
is the time-annotated tree. -/
def ZeroOneBLE_estimate_branch_lengths (tr : MTree) : ZTree :=
  zeroOneDfsT 0 tr

mutual
/-- `stepOkT z = true` iff every child's time is its parent's time plus 0
or 1 (hence times are non-decreasing from root to leaves). -/
def stepOkT : ZTree → Bool
  | .node t kids => stepOkF t kids
def stepOkF (pt : ℕ) : ZForest → Bool
  | .nil => true
  | .cons c rest =>
    (c.timeOf == pt || c.timeOf == pt + 1) && stepOkT c && stepOkF pt rest
end

/-- Child at position `i` of a time-annotated forest. -/
def getChildZ : ZForest → ℕ → Option ZTree
  | .nil, _ => none
  | .cons c _, 0 => some c
  | .cons _ rest, i + 1 => getChildZ rest i

/-- Child (with its edge's mutation count) at position `i`. -/
def getChildM : MForest → ℕ → Option (ℕ × MTree)
  | .nil, _ => none
  | .cons m c _, 0 => some (m, c)
  | .cons _ _ rest, i + 1 => getChildM rest i

/-- Time at the node reached from the root by the child-index path `p`. -/
def timeAt : ZTree → List ℕ → Option ℕ
  | z, [] => some z.timeOf
  | .node _ kids, i :: p => (getChildZ kids i).bind (fun c => timeAt c p)

/-- Number of edges on the child-index path `p` from the root that carry at
least one mutation. -/
def mutatedEdgesOnPath : MTree → List ℕ → Option ℕ
  | _, [] => some 0
  | .node kids, i :: p =>
    (getChildM kids i).bind
      (fun mc => (mutatedEdgesOnPath mc.2 p).map
        (fun n => (if 0 < mc.1 then 1 else 0) + n))

/-! ## Theorems -/

/-- C2: `estimate_branch_lengths` raises a domain error, before any solve
attempt, whenever the character matrix is degenerate (all-zero, or all
entries mutated/non-zero across every site) or
`minimum_branch_length × edge depth ≥ 1.0`: the result is the same
`ValueError` for every solver oracle — so the solver is never consulted,
the error is raised before any solve and is never retried. -/
theorem claim_C2 (cm : List (List ℤ)) (edgeDepth : ℕ) (m : ℚ) (tr : RTree)
    (h : allZeroCM cm = true ∨ allMutCM cm = true ∨ (1 : ℚ) ≤ (edgeDepth : ℚ) * m) :
    ∀ solver, estimate_branch_lengths cm edgeDepth m tr solver
        = estimate_branch_lengths cm edgeDepth m tr (.error ())
      ∧ isDomainError (estimate_branch_lengths cm edgeDepth m tr solver) = true := by
  intro s
  rcases h with h | h | h
  · simp [estimate_branch_lengths, h, isDomainError]
  · by_cases h0 : allZeroCM cm <;>
      simp [estimate_branch_lengths, h0, h, isDomainError]
  · by_cases h0 : allZeroCM cm <;> by_cases h1 : allMutCM cm <;>
      simp [estimate_branch_lengths, h0, h1, h, isDomainError]

/-- Witness for C2: a 1×1 fully-mutated character matrix is rejected with a
domain error no matter what the solver would have answered. -/
theorem claim_C2_witness :
    (estimate_branch_lengths [[1]] 0 0 (.node 0 .nil) (.ok fun _ => 1)
      = estimate_branch_lengths [[1]] 0 0 (.node 0 .nil) (.error ()))
    ∧ isDomainError
        (estimate_branch_lengths [[1]] 0 0 (.node 0 .nil) (.ok fun _ => 1)) = true :=
  claim_C2 [[1]] 0 0 (.node 0 .nil) (Or.inr (Or.inl (by decide))) (.ok fun _ => 1)

/-- C7: whenever the connectivity graph has zero edges, `perform_split`
returns exactly `(samples, [])`, for every choice of random hyperplanes and
hill-climb budget — so no embedding or cut is computed. -/
theorem claim_C7 (samples : List ℕ) (G : CGraph) (hyps : List (ℕ → Bool))
    (fuel : ℕ) (h : G.edges = []) :
    perform_split samples G hyps fuel = (samples, []) := by
  simp [perform_split, h]

/-- Witness for C7: a one-node graph with no edges. -/
theorem claim_C7_witness :
    perform_split [5] ⟨[5], []⟩ [fun _ => true] 3 = ([5], []) :=
  claim_C7 [5] ⟨[5], []⟩ [fun _ => true] 3 rfl

/-- The `dfs` assigns its accumulator as the visited node's time. -/
theorem timeOf_zeroOneDfsT : ∀ (t : ℕ) (tr : MTree), (zeroOneDfsT t tr).timeOf = t
  | _, .node _ => rfl

mutual
/-- Every child's `ZeroOneBLE` time is its parent's plus 0 or 1. -/
theorem stepOkT_dfs : ∀ (t : ℕ) (tr : MTree), stepOkT (zeroOneDfsT t tr) = true
  | t, .node kids => by
      simpa [zeroOneDfsT, stepOkT] using stepOkF_dfs t kids
theorem stepOkF_dfs : ∀ (t : ℕ) (ks : MForest), stepOkF t (zeroOneDfsF t ks) = true
  | _, .nil => rfl
  | t, .cons m c rest => by
      simp only [zeroOneDfsF, stepOkF, timeOf_zeroOneDfsT,
        stepOkT_dfs (t + if 0 < m then 1 else 0) c, stepOkF_dfs t rest,
        Bool.and_true]
      by_cases hm : 0 < m <;> simp [hm]
end

/-- The `dfs` preserves forest positions: the `i`-th child of the annotated
forest is the annotated `i`-th child. -/
theorem getChildZ_dfsF (t : ℕ) : ∀ (ks : MForest) (i : ℕ),
    getChildZ (zeroOneDfsF t ks) i
      = (getChildM ks i).map
          (fun mc => zeroOneDfsT (t + if 0 < mc.1 then 1 else 0) mc.2)
  | .nil, _ => rfl
  | .cons _ _ _, 0 => rfl
  | .cons _ _ rest, i + 1 => getChildZ_dfsF t rest i

/-- Along any root-to-node path, the `dfs` time is the accumulator plus the
number of mutated edges on the path. -/
theorem timeAt_dfs : ∀ (p : List ℕ) (t : ℕ) (tr : MTree),
    timeAt (zeroOneDfsT t tr) p = (mutatedEdgesOnPath tr p).map (fun n => t + n)
  | [], t, .node _ => by
      simp [zeroOneDfsT, timeAt, ZTree.timeOf, mutatedEdgesOnPath]
  | i :: p, t, .node kids => by
      simp only [zeroOneDfsT, timeAt, mutatedEdgesOnPath, getChildZ_dfsF]
      cases h : getChildM kids i with
      | none => simp
      | some mc =>
          simp only [Option.map_some', Option.some_bind]
          rw [timeAt_dfs p (t + if 0 < mc.1 then 1 else 0) mc.2]
          cases mutatedEdgesOnPath mc.2 p with
          | none => simp
          | some n => simp; omega

/-- A clamped node's time is the max of its parent's final time and its own
raw time. -/
theorem clampT_timeOf (raw : ℕ → ℚ) (pt : ℚ) :
    ∀ t : RTree, (clampT raw pt t).timeOf = max pt (raw t.idOf)
  | .node _ _ => rfl

mutual
/-- After the clamping sweep, no edge has negative length. -/
theorem monoT_clampT (raw : ℕ → ℚ) : ∀ (pt : ℚ) (t : RTree),
    monoT (clampT raw pt t) = true
  | pt, .node i kids => by
      simpa [clampT, monoT] using monoF_clampF raw (max pt (raw i)) kids
theorem monoF_clampF (raw : ℕ → ℚ) : ∀ (pt : ℚ) (f : RForest),
    monoF pt (clampF raw pt f) = true
  | _, .nil => rfl
  | pt, .cons t ts => by
      simp [clampF, monoF, clampT_timeOf, monoT_clampT raw pt t,
        monoF_clampF raw pt ts, le_max_left]
end

/-- The post-solve sweep forces the root's time to exactly 0. -/
theorem timeOf_postProcess (raw : ℕ → ℚ) : ∀ t : RTree, (postProcess raw t).timeOf = 0
  | .node _ _ => rfl

/-- The post-solve sweep leaves no negative-length edge, whatever the solver
returned. -/
theorem monoT_postProcess (raw : ℕ → ℚ) : ∀ t : RTree, monoT (postProcess raw t) = true
  | .node _ kids => by
      simpa [postProcess, monoT] using monoF_clampF raw 0 kids

mutual
/-- When the raw times are already non-decreasing along every edge and at
least the parent's time, the clamping sweep changes nothing. -/
theorem clampT_eq_rawTree (raw : ℕ → ℚ) : ∀ (pt : ℚ) (t : RTree),
    rawMonoT raw t = true → pt ≤ raw t.idOf → clampT raw pt t = rawTreeT raw t
  | pt, .node i kids, hmono, hpt => by
      have h1 : max pt (raw i) = raw i := max_eq_right hpt
      simp only [clampT, rawTreeT, h1]
      rw [clampF_eq_rawTree raw (raw i) kids (by simpa [rawMonoT] using hmono)]
theorem clampF_eq_rawTree (raw : ℕ → ℚ) : ∀ (pv : ℚ) (f : RForest),
    rawMonoF raw pv f = true → clampF raw pv f = rawTreeF raw f
  | _, .nil, _ => rfl
  | pv, .cons t ts, hmono => by
      simp only [rawMonoF, Bool.and_eq_true, decide_eq_true_eq] at hmono
      obtain ⟨⟨hle, hT⟩, hF⟩ := hmono
      simp only [clampF, rawTreeF]
      rw [clampT_eq_rawTree raw pv t hT hle, clampF_eq_rawTree raw pv ts hF]
end

mutual
/-- The leaf times of the raw-annotated tree are the raw values of the
leaves. -/
theorem leafTimesT_rawTree (raw : ℕ → ℚ) : ∀ t : RTree,
    leafTimesT (rawTreeT raw t) = (leavesT t).map raw
  | .node _ .nil => rfl
  | .node _ (.cons t ts) => by
      simp only [rawTreeT, rawTreeF, leafTimesT, leavesT, List.map_append]
      rw [leafTimesT_rawTree raw t, leafTimesF_rawTree raw ts]
theorem leafTimesF_rawTree (raw : ℕ → ℚ) : ∀ f : RForest,
    leafTimesF (rawTreeF raw f) = (leavesF f).map raw
  | .nil => rfl
  | .cons t ts => by
      simp only [rawTreeF, leafTimesF, leavesF, List.map_append]
      rw [leafTimesT_rawTree raw t, leafTimesF_rawTree raw ts]
end

mutual
/-- Dividing by a positive rate preserves the edge constraints: if the
solver values satisfy every minimum-branch-length constraint with slack
`δ ≥ 0`, the rescaled times are non-decreasing along every edge. -/
theorem rawMonoT_of_consT (v : ℕ → ℚ) (δ r : ℚ) (hδ : 0 ≤ δ) (hr : 0 < r) :
    ∀ t : RTree, consT v δ t = true → rawMonoT (fun i => v i / r) t = true
  | .node i kids, h => by
      simp only [consT] at h
      simpa [rawMonoT] using rawMonoF_of_consF v δ r hδ hr (v i) kids h
theorem rawMonoF_of_consF (v : ℕ → ℚ) (δ r : ℚ) (hδ : 0 ≤ δ) (hr : 0 < r) :
    ∀ (pv : ℚ) (f : RForest), consF v δ pv f = true →
      rawMonoF (fun i => v i / r) (pv / r) f = true
  | _, .nil, _ => rfl
  | pv, .cons t ts, h => by
      simp only [consF, Bool.and_eq_true, decide_eq_true_eq] at h
      obtain ⟨⟨hle, hT⟩, hF⟩ := h
      have h1 : pv / r ≤ v t.idOf / r :=
        (div_le_div_iff_of_pos_right hr).mpr (le_trans (le_add_of_nonneg_right hδ) hle)
      simp [rawMonoF, h1, rawMonoT_of_consT v δ r hδ hr t hT,
        rawMonoF_of_consF v δ r hδ hr pv ts hF]
end

/-- The threshold `1e-8` is positive. -/
theorem eps8_pos : (0 : ℚ) < eps8 := by norm_num [eps8]

/-- C1: whenever `estimate_branch_lengths` returns normally, the root's
time is exactly 0 and along every edge the child's time is at least the
parent's (no negative-length edge survives the clamping sweep) — for any
values the solver returned; and when the solver's values satisfy the
program's constraints exactly (root variable 0, minimum-branch-length
constraints with `minimum_branch_length ≥ 0`, ultrametric constraints), all
leaf times are equal (each is exactly 1, the rescaled tree depth). -/
theorem claim_C1 (cm : List (List ℤ)) (d : ℕ) (m : ℚ) (tr : RTree) (v : ℕ → ℚ)
    (r : ℚ) (tt : TTree)
    (hok : estimate_branch_lengths cm d m tr (.ok v) = .ok (r, tt)) :
    tt.timeOf = 0 ∧ monoT tt = true ∧
    ((v tr.idOf = 0 ∧ 0 ≤ m ∧ consT v (m * v (anchorOf tr)) tr = true ∧
        ultraT v tr = true) → ∀ x ∈ leafTimesT tt, x = 1) := by
  simp only [estimate_branch_lengths] at hok
  split_ifs at hok with h0 h1 h2 h3
  obtain ⟨hr, htt⟩ : v (anchorOf tr) = r ∧ postProcess (fun i => v i / v (anchorOf tr)) tr = tt := by
    simpa using hok
  push_neg at h3
  have hrate_pos : 0 < v (anchorOf tr) := lt_of_lt_of_le eps8_pos h3.1
  refine ⟨?_, ?_, ?_⟩
  · rw [← htt]; exact timeOf_postProcess _ tr
  · rw [← htt]; exact monoT_postProcess _ tr
  · rintro ⟨hroot, hm, hcons, hultra⟩ x hx
    have hδ : 0 ≤ m * v (anchorOf tr) := mul_nonneg hm (le_of_lt hrate_pos)
    have hraw := rawMonoT_of_consT v (m * v (anchorOf tr)) (v (anchorOf tr))
      hδ hrate_pos tr hcons
    cases tr with
    | node i kids =>
      have hroot' : v i = 0 := hroot
      have hraw0 : v i / v (anchorOf (RTree.node i kids)) = 0 := by
        rw [hroot']; exact zero_div _
      simp only [rawMonoT] at hraw
      cases kids with
      | nil =>
        exfalso
        have : anchorOf (RTree.node i .nil) = i := by simp [anchorOf, leavesT]
        rw [this, hroot'] at hrate_pos
        exact lt_irrefl 0 hrate_pos
      | cons t ts =>
        have hclamp : clampF (fun j => v j / v (anchorOf (RTree.node i (.cons t ts)))) 0
            (.cons t ts)
            = rawTreeF (fun j => v j / v (anchorOf (RTree.node i (.cons t ts)))) (.cons t ts) := by
          apply clampF_eq_rawTree
          rw [← hraw0]
          exact hraw
        have htt' : tt = TTree.node i 0
            (rawTreeF (fun j => v j / v (anchorOf (RTree.node i (.cons t ts)))) (.cons t ts)) := by
          rw [← htt]
          simp only [postProcess]
          rw [hclamp]
        rw [htt'] at hx
        have hleaf : leafTimesT (TTree.node i 0
            (rawTreeF (fun j => v j / v (anchorOf (RTree.node i (.cons t ts)))) (.cons t ts)))
            = (leavesT (RTree.node i (.cons t ts))).map
                (fun j => v j / v (anchorOf (RTree.node i (.cons t ts)))) := by
          simp only [rawTreeF, leafTimesT, leavesT, List.map_append]
          rw [leafTimesT_rawTree, leafTimesF_rawTree]
        rw [hleaf] at hx
        obtain ⟨l, hl, hxl⟩ := List.mem_map.mp hx
        have hvl : v l = v (anchorOf (RTree.node i (.cons t ts))) := by
          simp only [ultraT, List.all_eq_true] at hultra
          exact eq_of_beq (hultra l hl)
        rw [← hxl, hvl]
        exact div_self (ne_of_gt hrate_pos)

/-- Witness for C1: a successful two-node fit with solver values satisfying
the constraints exactly. -/
theorem claim_C1_witness :
    (TTree.node 0 0 (.cons (.node 1 1 .nil) .nil)).timeOf = 0 ∧
    monoT (TTree.node 0 0 (.cons (.node 1 1 .nil) .nil)) = true ∧
    ∀ x ∈ leafTimesT (TTree.node 0 0 (.cons (.node 1 1 .nil) .nil)), x = 1 := by
  have h := claim_C1 [[0, 1]] 1 0 (.node 0 (.cons (.node 1 .nil) .nil))
    (fun i => if i = 0 then 0 else 1) 1
    (TTree.node 0 0 (.cons (.node 1 1 .nil) .nil))
    (by with_unfolding_all rfl)
  exact ⟨h.1, h.2.1, h.2.2 (by with_unfolding_all decide)⟩

/-- C6 (counterexample to the claim as stated): a fitted mutation rate of
exactly `1e-8` — the left endpoint, outside the open interval — does not
fail: the solve is accepted.  (The matrix `[[0, 1]]` is non-degenerate and
the minimum branch length 0 is feasible, so the pre-checks pass.) -/
theorem claim_C6_cex :
    estimate_branch_lengths [[0, 1]] 1 0 (.node 0 (.cons (.node 1 .nil) .nil))
      (.ok fun _ => eps8)
      = .ok (eps8, TTree.node 0 0 (.cons (.node 1 1 .nil) .nil)) := by
  with_unfolding_all rfl

/-- C6 (amended): after the solve, the anchor leaf's value is stored as the
fitted mutation rate, and the fit fails with a solver error exactly when
that value lies strictly below `1e-8` or strictly above `15.0` — the
closed interval `[1e-8, 15.0]` is accepted, so a rate equal to either
endpoint does not fail. -/
theorem claim_C6 (cm : List (List ℤ)) (d : ℕ) (m : ℚ) (tr : RTree) (v : ℕ → ℚ)
    (h0 : allZeroCM cm = false) (h1 : allMutCM cm = false)
    (h2 : (d : ℚ) * m < 1) :
    (estimate_branch_lengths cm d m tr (.ok v) = .error .rateOutOfRange
      ↔ (v (anchorOf tr) < eps8 ∨ 15 < v (anchorOf tr))) ∧
    ∀ r tt, estimate_branch_lengths cm d m tr (.ok v) = .ok (r, tt) →
      r = v (anchorOf tr) := by
  constructor
  · constructor
    · intro h
      by_contra hc
      simp [estimate_branch_lengths, h0, h1, not_le.mpr h2, hc] at h
    · intro h
      simp [estimate_branch_lengths, h0, h1, not_le.mpr h2, h]
  · intro r tt h
    by_cases hc : v (anchorOf tr) < eps8 ∨ 15 < v (anchorOf tr)
    · simp [estimate_branch_lengths, h0, h1, not_le.mpr h2, hc] at h
    · simp [estimate_branch_lengths, h0, h1, not_le.mpr h2, hc] at h
      exact h.1.symm

/-- Witness for C6: a rate of 20 is strictly above 15, so the fit fails
with the solver error. -/
theorem claim_C6_witness :
    estimate_branch_lengths [[0, 1]] 1 0 (.node 0 (.cons (.node 1 .nil) .nil))
      (.ok fun _ => 20) = .error .rateOutOfRange := by
  have h := claim_C6 [[0, 1]] 1 0 (.node 0 (.cons (.node 1 .nil) .nil))
    (fun _ => 20) (by decide) (by decide) (by with_unfolding_all decide)
  exact h.1.mpr (Or.inr (by with_unfolding_all decide))

/-- An element exhibited at a known position of a list is a member. -/
theorem mem_of_eq_append_cons (L : List (List ℕ)) (x : List ℕ)
    (l₁ l₂ : List (List ℕ)) (h : L = l₁ ++ x :: l₂) : x ∈ L := by
  rw [h]
  exact List.mem_append.mpr (Or.inr (List.mem_cons_self _ _))

/-- Full characterisation of the hyperplane selection loop: starting from
`(best, bs)` with `bs = evaluate_cut best G`, the result either is the
start pair (when no candidate strictly beats `bs`) or is the earliest
candidate that attains the running maximum, with every earlier candidate
scoring strictly below it and every later one at most it. -/
theorem selectCutAux_spec (G : CGraph) :
    ∀ (cuts : List (List ℕ)) (best : List ℕ) (bs : ℚ),
    ((selectCutAux G cuts best bs) = (best, bs) ∧ ∀ c ∈ cuts, evaluate_cut c G ≤ bs)
    ∨ (∃ l₁ l₂, cuts = l₁ ++ (selectCutAux G cuts best bs).1 :: l₂
        ∧ (selectCutAux G cuts best bs).2 = evaluate_cut (selectCutAux G cuts best bs).1 G
        ∧ bs < (selectCutAux G cuts best bs).2
        ∧ (∀ c ∈ l₁, evaluate_cut c G < (selectCutAux G cuts best bs).2)
        ∧ (∀ c ∈ l₂, evaluate_cut c G ≤ (selectCutAux G cuts best bs).2)) := by
  intro cuts
  induction cuts with
  | nil => intro best bs; left; exact ⟨rfl, by simp⟩
  | cons c cs ih =>
    intro best bs
    by_cases hc : bs < evaluate_cut c G
    · have heq : selectCutAux G (c :: cs) best bs = selectCutAux G cs c (evaluate_cut c G) := by
        simp [selectCutAux, hc]
      rw [heq]
      rcases ih c (evaluate_cut c G) with ⟨h1, h2⟩ | ⟨l₁, l₂, he, hv, hlt, hb1, hb2⟩
      · right
        refine ⟨[], cs, ?_, ?_, ?_, ?_, ?_⟩
        · rw [h1]; rfl
        · rw [h1]
        · rw [h1]; exact hc
        · simp
        · intro x hx; rw [h1]; exact h2 x hx

      · right
        refine ⟨c :: l₁, l₂, congrArg (List.cons c) he, hv, lt_trans hc hlt, ?_, hb2⟩
        intro x hx
        rcases List.mem_cons.mp hx with rfl | hx
        · exact hlt
        · exact hb1 x hx
    · have heq : selectCutAux G (c :: cs) best bs = selectCutAux G cs best bs := by
        simp [selectCutAux, hc]
      rw [heq]
      rcases ih best bs with ⟨h1, h2⟩ | ⟨l₁, l₂, he, hv, hlt, hb1, hb2⟩
      · left
        refine ⟨h1, ?_⟩
        intro x hx
        rcases List.mem_cons.mp hx with rfl | hx
        · exact not_lt.mp hc
        · exact h2 x hx
      · right
        refine ⟨c :: l₁, l₂, congrArg (List.cons c) he, hv, hlt, ?_, hb2⟩
        intro x hx
        rcases List.mem_cons.mp hx with rfl | hx
        · exact lt_of_le_of_lt (not_lt.mp hc) hlt
        · exact hb1 x hx

/-- C8 (counterexample to the claim as stated): with a single sampled cut
of negative score, the loop retains the initial empty cut — which is not
among the sampled cuts, so the retained cut is not the highest-scoring
sampled cut. -/
theorem claim_C8_cex :
    selectBestCut ⟨[0, 1], [(0, 1, -1)]⟩ [[0]] = []
    ∧ evaluate_cut [0] ⟨[0, 1], [(0, 1, -1)]⟩ = -1
    ∧ ([] : List ℕ) ∉ [[0]] := by
  refine ⟨?_, ?_, ?_⟩ <;> with_unfolding_all decide

/-- C8 (amended): the loop starts from the empty cut with score 0 and only
a strictly greater score replaces the incumbent, so the retained cut is
either the empty cut (when no sampled cut scores above 0) or the earliest
sampled cut attaining the maximum score: every earlier sampled cut scores
strictly less, every later one at most as much, and the retained score
exceeds 0. -/
theorem claim_C8 (G : CGraph) (cuts : List (List ℕ)) :
    (selectBestCut G cuts = [] ∧ ∀ c ∈ cuts, evaluate_cut c G ≤ 0)
    ∨ (∃ l₁ l₂, cuts = l₁ ++ selectBestCut G cuts :: l₂
        ∧ 0 < evaluate_cut (selectBestCut G cuts) G
        ∧ (∀ c ∈ l₁, evaluate_cut c G < evaluate_cut (selectBestCut G cuts) G)
        ∧ (∀ c ∈ l₂, evaluate_cut c G ≤ evaluate_cut (selectBestCut G cuts) G)) := by
  rcases selectCutAux_spec G cuts [] 0 with ⟨h1, h2⟩ | ⟨l₁, l₂, he, hv, hlt, hb1, hb2⟩
  · left; exact ⟨by rw [selectBestCut, h1], h2⟩
  · right
    refine ⟨l₁, l₂, he, ?_, ?_, ?_⟩
    · rw [selectBestCut, ← hv]; exact hlt
    · intro c hc; rw [selectBestCut, ← hv]; exact hb1 c hc
    · intro c hc; rw [selectBestCut, ← hv]; exact hb2 c hc

/-- A single-node move stays within the graph's nodes. -/
theorem flipNode_subset (cut : List ℕ) (x : ℕ) (nodes : List ℕ)
    (hc : ∀ y ∈ cut, y ∈ nodes) (hx : x ∈ nodes) :
    ∀ y ∈ flipNode cut x, y ∈ nodes := by
  intro y hy
  unfold flipNode at hy
  split at hy
  · exact hc y (List.mem_of_mem_erase hy)
  · rcases List.mem_cons.mp hy with rfl | hy
    · exact hx
    · exact hc y hy

/-- A single-node move preserves duplicate-freeness. -/
theorem flipNode_nodup (cut : List ℕ) (x : ℕ) (h : cut.Nodup) :
    (flipNode cut x).Nodup := by
  unfold flipNode
  split
  · exact h.erase x
  · exact List.nodup_cons.mpr ⟨by assumption, h⟩

/-- An improving move produced by one hill-climb pass is a single-node
flip at some scanned node. -/
theorem improveOnce_flip (G : CGraph) (cut : List ℕ) :
    ∀ (xs : List ℕ) (c : List ℕ),
      improveOnce G cut xs = some c → ∃ x ∈ xs, c = flipNode cut x
  | [], c, h => by simp [improveOnce] at h
  | x :: xs, c, h => by
      simp only [improveOnce] at h
      split at h
      · exact ⟨x, List.mem_cons_self x xs, (Option.some.injEq _ _ ▸ h).symm⟩
      · obtain ⟨y, hy, hc⟩ := improveOnce_flip G cut xs c h
        exact ⟨y, List.mem_cons_of_mem x hy, hc⟩

/-- The hill-climb keeps the left side duplicate-free and within the
graph's nodes. -/
theorem max_cut_improve_cut_inv (G : CGraph) : ∀ (fuel : ℕ) (cut : List ℕ),
    cut.Nodup → (∀ y ∈ cut, y ∈ G.nodes) →
    (max_cut_improve_cut G fuel cut).Nodup
      ∧ ∀ y ∈ max_cut_improve_cut G fuel cut, y ∈ G.nodes
  | 0, cut, h1, h2 => ⟨h1, h2⟩
  | fuel + 1, cut, h1, h2 => by
      simp only [max_cut_improve_cut]
      cases him : improveOnce G cut G.nodes with
      | none => exact ⟨h1, h2⟩
      | some c =>
          obtain ⟨x, hx, rfl⟩ := improveOnce_flip G cut G.nodes c him
          exact max_cut_improve_cut_inv G fuel _ (flipNode_nodup cut x h1)
            (flipNode_subset cut x G.nodes h2 hx)

/-- A duplicate-free left side within `samples`, together with the filtered
complement `perform_split` builds, is a disjoint partition of `samples`. -/
theorem left_filter_perm (samples left : List ℕ) (hs : samples.Nodup)
    (hl : left.Nodup) (hsub : ∀ x ∈ left, x ∈ samples) :
    (left ++ samples.filter (fun i => decide (i ∉ left))).Perm samples
    ∧ ∀ x ∈ left, x ∉ samples.filter (fun i => decide (i ∉ left)) := by
  have hdisj : ∀ x ∈ left, x ∉ samples.filter (fun i => decide (i ∉ left)) := by
    intro x hx hmem
    have := (List.mem_filter.mp hmem).2
    simp only [decide_eq_true_eq] at this
    exact this hx
  refine ⟨?_, hdisj⟩
  apply (List.perm_ext_iff_of_nodup ?_ hs).mpr
  · intro a
    constructor
    · intro ha
      rcases List.mem_append.mp ha with ha | ha
      · exact hsub a ha
      · exact List.mem_of_mem_filter ha
    · intro ha
      by_cases hal : a ∈ left
      · exact List.mem_append.mpr (Or.inl hal)
      · refine List.mem_append.mpr (Or.inr ?_)
        exact List.mem_filter.mpr ⟨ha, by simpa using hal⟩
  · exact List.Nodup.append hl (hs.filter _) hdisj

/-- C3: the pair returned by `perform_split` is a disjoint partition of the
input samples — their concatenation is a permutation of `samples` and the
two sides share no element — given that the sample ids are distinct and the
connectivity graph's nodes are distinct samples (the spec's
`construct_connectivity_graph` contract: nodes = samples). -/
theorem claim_C3 (samples : List ℕ) (G : CGraph) (hyps : List (ℕ → Bool))
    (fuel : ℕ) (hs : samples.Nodup) (hn : G.nodes.Nodup)
    (hsub : ∀ x ∈ G.nodes, x ∈ samples) :
    ((perform_split samples G hyps fuel).1
        ++ (perform_split samples G hyps fuel).2).Perm samples
    ∧ ∀ x ∈ (perform_split samples G hyps fuel).1,
        x ∉ (perform_split samples G hyps fuel).2 := by
  by_cases hE : G.edges.isEmpty
  · constructor
    · simp [perform_split, hE]
    · simp [perform_split, hE]
  · have hcuts : ∀ c ∈ hyps.map (fun b => G.nodes.filter b),
        c.Nodup ∧ ∀ y ∈ c, y ∈ G.nodes := by
      intro c hc
      obtain ⟨b, _, rfl⟩ := List.mem_map.mp hc
      exact ⟨hn.filter b, fun y hy => List.mem_of_mem_filter hy⟩
    have hrc : (selectBestCut G (hyps.map (fun b => G.nodes.filter b))).Nodup
        ∧ ∀ y ∈ selectBestCut G (hyps.map (fun b => G.nodes.filter b)),
            y ∈ G.nodes := by
      rcases selectCutAux_spec G (hyps.map (fun b => G.nodes.filter b)) [] 0 with
        ⟨h1, _⟩ | ⟨l₁, l₂, he, _, _, _, _⟩
      · rw [selectBestCut, h1]
        exact ⟨List.nodup_nil, by simp⟩
      · exact hcuts _ (mem_of_eq_append_cons _ _ l₁ l₂ he)
    have hleft := max_cut_improve_cut_inv G fuel _ hrc.1 hrc.2
    have hmain := left_filter_perm samples
      (max_cut_improve_cut G fuel (selectBestCut G (hyps.map (fun b => G.nodes.filter b))))
      hs hleft.1 (fun x hx => hsub x (hleft.2 x hx))
    have hps : perform_split samples G hyps fuel
        = (max_cut_improve_cut G fuel (selectBestCut G (hyps.map (fun b => G.nodes.filter b))),
           samples.filter (fun i => decide
             (i ∉ max_cut_improve_cut G fuel
               (selectBestCut G (hyps.map (fun b => G.nodes.filter b)))))) := by
      simp [perform_split, hE]
    rw [hps]
    exact hmain

/-- Witness for C3: a two-sample split over a one-edge graph. -/
theorem claim_C3_witness :
    ((perform_split [0, 1] ⟨[0, 1], [(0, 1, 1)]⟩ [fun i => decide (i = 0)] 1).1
        ++ (perform_split [0, 1] ⟨[0, 1], [(0, 1, 1)]⟩ [fun i => decide (i = 0)] 1).2).Perm
      [0, 1]
    ∧ ∀ x ∈ (perform_split [0, 1] ⟨[0, 1], [(0, 1, 1)]⟩ [fun i => decide (i = 0)] 1).1,
        x ∉ (perform_split [0, 1] ⟨[0, 1], [(0, 1, 1)]⟩ [fun i => decide (i = 0)] 1).2 :=
  claim_C3 [0, 1] ⟨[0, 1], [(0, 1, 1)]⟩ [fun i => decide (i = 0)] 1
    (by decide) (by decide) (by decide)

/-- C4 (counterexample to the claim as stated): two configurations with
equal scores — Python's `sort(reverse=True)` on `(score, [mbl])` tuples
breaks the tie by comparing the configurations themselves, so the larger
`minimum_branch_length` (the later-encountered one, since the grid is
scanned in order) wins, not the first-encountered one. -/
theorem claim_C4_cex :
    gridSearchBestMBL (fun _ => 0) [0, 1] = 1
    ∧ firstSeenBestMBL (fun _ => 0) [0, 1] = 0
    ∧ (1 : ℚ) ≠ 0 := by
  refine ⟨?_, ?_, ?_⟩ <;> with_unfolding_all decide

/-- The head of the descending stable sort is a member of the list and is
lexicographically greatest among its elements. -/
theorem pySortDesc_head_max (pairs : List (ℚ × ℚ)) (hne : pairs ≠ []) :
    (pySortDesc pairs).headD (0, 0) ∈ pairs
    ∧ ∀ p ∈ pairs, pyDescOrder ((pySortDesc pairs).headD (0, 0)) p := by
  haveI htot : IsTotal (ℚ × ℚ) pyDescOrder := by
    constructor
    intro a b
    rcases lt_trichotomy a.1 b.1 with h | h | h
    · exact Or.inr (Or.inl h)
    · rcases le_total a.2 b.2 with h2 | h2
      · exact Or.inr (Or.inr ⟨h, h2⟩)
      · exact Or.inl (Or.inr ⟨h.symm, h2⟩)
    · exact Or.inl (Or.inl h)
  haveI htr : IsTrans (ℚ × ℚ) pyDescOrder := by
    constructor
    intro a b c h1 h2
    rcases h1 with h1 | ⟨he1, hl1⟩ <;> rcases h2 with h2 | ⟨he2, hl2⟩
    · exact Or.inl (lt_trans h2 h1)
    · exact Or.inl (he2 ▸ h1)
    · exact Or.inl (lt_of_lt_of_eq h2 he1)
    · exact Or.inr ⟨he2.trans he1, le_trans hl2 hl1⟩
  have hsorted : (pySortDesc pairs).Sorted pyDescOrder :=
    List.sorted_insertionSort pyDescOrder pairs
  have hperm : (pySortDesc pairs).Perm pairs :=
    List.perm_insertionSort pyDescOrder pairs
  obtain ⟨hd, tl, hht⟩ : ∃ hd tl, pySortDesc pairs = hd :: tl := by
    cases hsort : pySortDesc pairs with
    | nil =>
        exfalso
        apply hne
        have h0 : ([] : List (ℚ × ℚ)).Perm pairs := hsort ▸ hperm
        exact h0.nil_eq.symm
    | cons hd tl => exact ⟨hd, tl, rfl⟩
  have hw : (pySortDesc pairs).headD (0, 0) = hd := by simp [hht]
  have hmemsorted : ∀ p ∈ pairs, p ∈ hd :: tl := fun p hp =>
    hht ▸ hperm.symm.subset hp
  refine ⟨?_, ?_⟩
  · rw [hw]
    exact hperm.subset (hht ▸ List.mem_cons_self hd tl)
  · intro p hp
    rw [hw]
    rcases List.mem_cons.mp (hmemsorted p hp) with rfl | hp'
    · exact Or.inr ⟨rfl, le_refl _⟩
    · have := hht ▸ hsorted
      exact (List.sorted_cons.mp this).1 p hp'

/-- C4 (amended): the grid search ranks configurations by the full
`(held-out score, minimum_branch_length)` tuple in descending lexicographic
order — so ties in score are broken towards the larger
`minimum_branch_length`, not towards the first-encountered configuration —
and then refits the final model on the full tree with the winning
`minimum_branch_length`. -/
theorem claim_C4 (cvScore : ℚ → ℚ) (grid : List ℚ) (hne : grid ≠ []) :
    (pySortDesc (grid.map (fun m => (cvScore m, m)))).headD (0, 0)
        ∈ grid.map (fun m => (cvScore m, m))
    ∧ (∀ p ∈ grid.map (fun m => (cvScore m, m)),
        pyDescOrder ((pySortDesc (grid.map (fun m => (cvScore m, m)))).headD (0, 0)) p)
    ∧ gridSearchBestMBL cvScore grid
        = ((pySortDesc (grid.map (fun m => (cvScore m, m)))).headD (0, 0)).2
    ∧ ∀ cm d tr s, gridSearchCV_estimate cvScore grid cm d tr s
        = estimate_branch_lengths cm d
            ((pySortDesc (grid.map (fun m => (cvScore m, m)))).headD (0, 0)).2 tr s := by
  have hpne : grid.map (fun m => (cvScore m, m)) ≠ [] := by
    intro h
    exact hne (by simpa using h)
  obtain ⟨hmem, hmax⟩ := pySortDesc_head_max (grid.map (fun m => (cvScore m, m))) hpne
  exact ⟨hmem, hmax, rfl, fun cm d tr s => rfl⟩

/-- Witness for C4: the tied grid `[0, 1]` with all scores 0. -/
theorem claim_C4_witness :
    (pySortDesc ([(0 : ℚ), 1].map (fun m => ((0 : ℚ), m)))).headD (0, 0)
        ∈ [(0 : ℚ), 1].map (fun m => ((0 : ℚ), m))
    ∧ (∀ p ∈ [(0 : ℚ), 1].map (fun m => ((0 : ℚ), m)),
        pyDescOrder ((pySortDesc ([(0 : ℚ), 1].map (fun m => ((0 : ℚ), m)))).headD (0, 0)) p)
    ∧ gridSearchBestMBL (fun _ => 0) [0, 1]
        = ((pySortDesc ([(0 : ℚ), 1].map (fun m => ((0 : ℚ), m)))).headD (0, 0)).2
    ∧ ∀ cm d tr s, gridSearchCV_estimate (fun _ => 0) [0, 1] cm d tr s
        = estimate_branch_lengths cm d
            ((pySortDesc ([(0 : ℚ), 1].map (fun m => ((0 : ℚ), m)))).headD (0, 0)).2 tr s :=
  claim_C4 (fun _ => 0) [0, 1] (by decide)

/-- The edge loop of `model_log_likelihood` hits the `-inf` early return as
soon as it reaches a mutated edge with `edge_length * mutation_rate` below
`1e-8`, provided no earlier edge trips the non-negativity assertion. -/
theorem model_log_likelihood_go_negInf (rate : ℚ) :
    ∀ (es : List EdgeData) (acc : List (ℕ × ℚ × ℕ)),
      (∀ e ∈ es, e.parentTime ≤ e.childTime) →
      (∃ e ∈ es, 0 < e.numMutated ∧ (e.childTime - e.parentTime) * rate < eps8) →
      model_log_likelihood_go rate es acc = .negInf
  | [], _, _, hbad => by simp at hbad
  | e :: es, acc, hmono, hbad => by
      have hl : ¬ (e.childTime - e.parentTime < 0) := by
        have := hmono e (List.mem_cons_self e es)
        linarith
      by_cases hcur : 0 < e.numMutated ∧ (e.childTime - e.parentTime) * rate < eps8
      · simp [model_log_likelihood_go, hl, hcur]
      · have hbad' : ∃ e' ∈ es,
            0 < e'.numMutated ∧ (e'.childTime - e'.parentTime) * rate < eps8 := by
          rcases hbad with ⟨e', he', hp⟩
          rcases List.mem_cons.mp he' with rfl | he'
          · exact absurd hp hcur
          · exact ⟨e', he', hp⟩
        simp only [model_log_likelihood_go, if_neg hl, if_neg hcur]
        exact model_log_likelihood_go_negInf rate es _
          (fun x hx => hmono x (List.mem_cons_of_mem e hx)) hbad'

/-- C5 (counterexample to the claim as stated): an edge with negative
length (child time below parent time) that carries a mutation satisfies
`edge_length × mutation_rate < 1e-8`, yet `model_log_likelihood` raises its
`assert(edge_length >= 0)` instead of returning `-inf`. -/
theorem claim_C5_cex :
    model_log_likelihood [⟨1, 0, 0, 1⟩] 1 = .assertFailure
    ∧ LLResult.assertFailure ≠ LLResult.negInf
    ∧ 0 < (1 : ℕ) ∧ ((0 : ℚ) - 1) * 1 < eps8 := by
  refine ⟨?_, ?_, ?_, ?_⟩ <;> with_unfolding_all decide

/-- C5 (amended): whenever node times are non-decreasing along every edge
(so the `assert(edge_length >= 0)` on each edge passes), if some edge with
at least one mutation has `edge_length × mutation_rate < 1e-8` then
`model_log_likelihood` returns `-inf` rather than raising; the function is
pure by construction — its result is determined by the per-edge data and
the rate. -/
theorem claim_C5 (edges : List EdgeData) (rate : ℚ)
    (hmono : ∀ e ∈ edges, e.parentTime ≤ e.childTime)
    (hbad : ∃ e ∈ edges,
      0 < e.numMutated ∧ (e.childTime - e.parentTime) * rate < eps8) :
    model_log_likelihood edges rate = .negInf :=
  model_log_likelihood_go_negInf rate edges [] hmono hbad

/-- Witness for C5: a zero-length mutated edge at rate 1. -/
theorem claim_C5_witness :
    model_log_likelihood [⟨0, 0, 0, 1⟩] 1 = .negInf :=
  claim_C5 [⟨0, 0, 0, 1⟩] 1 (by with_unfolding_all decide)
    (by with_unfolding_all decide)

/-- C9 (counterexample to the claim as stated): a fold whose held-out
scoring raises a numeric error (`ValueError`) propagates the exception out
of `_cv_metric_ble` — aborting the search — instead of contributing a
`-inf` score, because the scoring block is outside the `try`. -/
theorem claim_C9_cex :
    cv_metric_ble (Except.ok ()) (fun _ => Except.error PyError.valueError)
      = Except.error PyError.valueError
    ∧ Except.error PyError.valueError ≠ Except.ok (⊥ : WithBot ℚ) :=
  ⟨rfl, by simp⟩

/-- C9 (amended): a fold whose model fitting raises any error contributes
`-inf` in `_cv_metric_ble` (bare `except:`), and in `_fit_model` an
`IIDExponentialMLEError` or `ValueError` raised during fitting or held-out
scoring contributes `-inf`; but an error raised during the held-out scoring
phase of `_cv_metric_ble` propagates and aborts the search. -/
theorem claim_C9 (α : Type) (e : PyError)
    (score : α → Except PyError (WithBot ℚ)) (a : α) :
    (cv_metric_ble (Except.error e : Except PyError α) score = .ok ⊥)
    ∧ ((e = .iidExponentialMLEError ∨ e = .valueError) →
        fit_model (Except.error e : Except PyError α) score = .ok ⊥)
    ∧ ((e = .iidExponentialMLEError ∨ e = .valueError) →
        fit_model (Except.ok a) (fun _ => Except.error e) = .ok ⊥)
    ∧ cv_metric_ble (Except.ok a) (fun _ => Except.error e) = Except.error e := by
  refine ⟨rfl, ?_, ?_, rfl⟩
  · rintro (rfl | rfl) <;> rfl
  · rintro (rfl | rfl) <;> rfl

/-- Witness for C9: a fitting `ValueError` contributes `-inf` in both fold
runners. -/
theorem claim_C9_witness :
    (cv_metric_ble (Except.error PyError.valueError : Except PyError Unit)
        (fun _ => Except.ok (⊥ : WithBot ℚ)) = Except.ok ⊥)
    ∧ fit_model (Except.ok ()) (fun _ => Except.error PyError.valueError)
        = Except.ok (⊥ : WithBot ℚ) := by
  have h := claim_C9 Unit PyError.valueError (fun _ => Except.ok (⊥ : WithBot ℚ)) ()
  exact ⟨h.1, h.2.2.1 (Or.inr rfl)⟩

/-- C10: `ZeroOneBLE.estimate_branch_lengths` assigns every node a time
equal to the number of edges on its root path carrying at least one
mutation (as counted by the collaborator under the estimator's
`include_missing` setting); the root's time is 0 and each child's time is
its parent's plus 0 or 1, hence non-decreasing from root to leaves. -/
theorem claim_C10 (tr : MTree) :
    (ZeroOneBLE_estimate_branch_lengths tr).timeOf = 0 ∧
    stepOkT (ZeroOneBLE_estimate_branch_lengths tr) = true ∧
    ∀ p, timeAt (ZeroOneBLE_estimate_branch_lengths tr) p = mutatedEdgesOnPath tr p := by
  refine ⟨timeOf_zeroOneDfsT 0 tr, stepOkT_dfs 0 tr, fun p => ?_⟩
  rw [ZeroOneBLE_estimate_branch_lengths, timeAt_dfs p 0 tr]
  cases mutatedEdgesOnPath tr p <;> simp

end Cassiopeia
